import Mathlib

/-!
Shallow embedding of the easy-script interpreter (src/main.go).
Strings are modelled as `List Char` (the inputs of interest are ASCII, where
Go's byte indexing coincides with character indexing).  Go's `int` is 64-bit;
arithmetic on it is modelled on unbounded `Int` with an explicit two's
complement wrap (`int64wrap`) where the source can overflow, and
`strconv.Atoi`'s range clamping is modelled by `int64clamp`.  Go panics
(runtime faults and explicit `panic` calls) are modelled as `Except` errors.
-/

namespace ES

/-- The whitespace test used by Go's `strings.TrimSpace` (ASCII part). -/
def isSpaceChar (c : Char) : Bool :=
  c = ' ' || c = '\t' || c = '\n' || c = '\r' || c = '\x0B' || c = '\x0C'

/-- Model of `strings.TrimSpace`: drop whitespace at both ends. -/
def trimSpace (s : List Char) : List Char :=
  ((s.dropWhile isSpaceChar).reverse.dropWhile isSpaceChar).reverse

/-- Split a character list at every character satisfying `p`, keeping empty
pieces (the shape shared by `strings.Split` and `strings.FieldsFunc`). -/
def splitByPred (p : Char → Bool) : List Char → List (List Char)
  | [] => [[]]
  | x :: xs =>
    if p x then [] :: splitByPred p xs
    else
      match splitByPred p xs with
      | [] => [[x]]
      | y :: ys => (x :: y) :: ys

/-- Model of `strings.Split(s, sep)` for a one-character separator. -/
def splitOnChar (c : Char) (s : List Char) : List (List Char) :=
  splitByPred (fun x => x = c) s

/-- Model of `strings.FieldsFunc`: the nonempty pieces between separators. -/
def fieldsFunc (p : Char → Bool) (s : List Char) : List (List Char) :=
  (splitByPred p s).filter (fun w => w ≠ [])

/-- Index of the first character satisfying `p` (`none` models Go's `-1`). -/
def indexWhere (p : Char → Bool) : List Char → Option Nat
  | [] => none
  | x :: xs => if p x then some 0 else (indexWhere p xs).map (· + 1)

/-- Model of `strings.Index(s, c)` for a one-character pattern. -/
def indexOfChar (c : Char) (s : List Char) : Option Nat :=
  indexWhere (fun x => x = c) s

/-- Model of `strings.IndexAny(s, chars)`. -/
def indexOfAny (cs : List Char) (s : List Char) : Option Nat :=
  indexWhere (fun x => cs.contains x) s

/-- Model of `strings.LastIndex(s, c)` for a one-character pattern. -/
def lastIndexOfChar (c : Char) (s : List Char) : Option Nat :=
  (indexOfChar c s.reverse).map (fun i => s.length - 1 - i)

/-- ASCII decimal digit test. -/
def isDigitChar (c : Char) : Bool := '0' ≤ c && c ≤ '9'

/-- Value of a string of decimal digits. -/
def digitsVal (s : List Char) : Nat :=
  s.foldl (fun a c => a * 10 + (c.toNat - 48)) 0

/-- Digits part of `strconv.Atoi`'s grammar: one or more decimal digits. -/
def numBody (s : List Char) : Option Nat :=
  if !s.isEmpty && s.all isDigitChar then some (digitsVal s) else none

/-- The number syntax accepted by `strconv.Atoi`: an optional single sign
followed by one or more decimal digits; `none` on any syntax error. -/
def numParse : List Char → Option Int
  | [] => none
  | c :: rest =>
    if c = '-' then
      match numBody rest with
      | some n => some (-(n : Int))
      | none => none
    else if c = '+' then
      match numBody rest with
      | some n => some ((n : Int))
      | none => none
    else
      match numBody (c :: rest) with
      | some n => some ((n : Int))
      | none => none

def int64Min : Int := -9223372036854775808

def int64Max : Int := 9223372036854775807

/-- Range clamping of `strconv.Atoi`: out-of-range values come back clamped
to the 64-bit bounds (together with an error that the source discards). -/
def int64clamp (v : Int) : Int :=
  if v < int64Min then int64Min else if int64Max < v then int64Max else v

/-- Model of `v, _ := strconv.Atoi(s)`: the value used after the source
discards the error — 0 on a syntax error, the clamped value on overflow. -/
def atoi (s : List Char) : Int :=
  match numParse s with
  | some v => int64clamp v
  | none => 0

/-- Two's complement wraparound of Go's 64-bit `int` arithmetic. -/
def int64wrap (v : Int) : Int :=
  (v - int64Min) % 18446744073709551616 + int64Min

/-- Real-valued exponentiation truncated toward zero: the value the spec
ascribes to `Power`, and the value the float64 computation in the source
produces once its operand has been rounded, whenever every intermediate of
`math.Pow`'s repeated squaring is exactly representable (see `powFloat`). -/
def powTrunc (a b : Int) : Int :=
  if 0 ≤ b then a ^ b.toNat else Int.tdiv 1 (a ^ (-b).toNat)

/-- Number of low bits that must be dropped from `n` so that at most 53
significant bits remain (0 when `n < 2^53`).  The fuel argument bounds the
bit length; it is called with fuel 64, enough for every 64-bit value. -/
def f64Shift : Nat → Nat → Nat
  | 0, _ => 0
  | fuel + 1, n => if n < 2 ^ 53 then 0 else f64Shift fuel (n / 2) + 1

/-- Round a nonnegative 64-bit integer to the nearest value representable
with a 53-bit significand, ties to even: exactly what conversion to Go's
`float64` does to it, computed in exact integer arithmetic.  Identity for
`n < 2^53`. -/
def roundF64Nat (n : Nat) : Nat :=
  if n < 2 ^ 53 then n
  else
    (if 2 * (n % 2 ^ f64Shift 64 n) > 2 ^ f64Shift 64 n ∨
        (2 * (n % 2 ^ f64Shift 64 n) = 2 ^ f64Shift 64 n ∧
          (n / 2 ^ f64Shift 64 n) % 2 = 1) then
      (n / 2 ^ f64Shift 64 n + 1) * 2 ^ f64Shift 64 n
    else
      (n / 2 ^ f64Shift 64 n) * 2 ^ f64Shift 64 n)

/-- Go's `float64(v)` conversion of a 64-bit integer value, as the exact
integer it rounds to. -/
def toFloat64Int (v : Int) : Int :=
  if v < 0 then -(roundF64Nat (-v).toNat : Int) else (roundF64Nat v.toNat : Int)

/-- Model of `int(math.Pow(float64(a), float64(b)))` for the integer values
this interpreter feeds it: the operand `a` is rounded by the `float64`
conversion, then exponentiated real-valued and truncated toward zero.  This
matches the source exactly in `math.Pow`'s `y == 0` and `y == 1` special
cases, and whenever every intermediate of its repeated-squaring loop is
exactly representable — in particular whenever the (rounded) base and the
result are below `2^53` for a nonnegative exponent, and whenever the base is
nonzero for a negative exponent (the true value then lies in `[-1, 1]` and
truncates like the float computation).  The implementation-specific
conversion of `±Inf` or out-of-int64-range float results (e.g. `0^-1`, or
huge powers) is outside the model and outside every theorem below. -/
def powFloat (a b : Int) : Int :=
  powTrunc (toFloat64Int a) b

/-- Model of `strconv.Itoa`: decimal representation. -/
def itoa (v : Int) : List Char := (toString v).toList

/-- The closed set of token kinds of src/main.go (the Token* constants). -/
inductive TokenType where
  | CONSOLE
  | LOG
  | STRING
  | INT
  | PLUS
  | MINUS
  | MULTIPLY
  | DIVIDE
  | MODULO
  | POWER
deriving DecidableEq

/-- A lexical token: kind plus the literal text, as in the Go `Token` struct. -/
structure Token where
  type : TokenType
  literal : List Char
deriving DecidableEq

/-- The operator characters the lexer searches for (`"+-*%/^"`). -/
def opChars : List Char := ['+', '-', '*', '%', '/', '^']

/-- The `switch operator` statement of `Lex`: the token emitted for a single
operator character; `none` for the (unreachable) missing-default case. -/
def opTokenOf (c : Char) : Option Token :=
  if c = '+' then some ⟨.PLUS, [c]⟩
  else if c = '-' then some ⟨.MINUS, [c]⟩
  else if c = '*' then some ⟨.MULTIPLY, [c]⟩
  else if c = '/' then some ⟨.DIVIDE, [c]⟩
  else if c = '%' then some ⟨.MODULO, [c]⟩
  else if c = '^' then some ⟨.POWER, [c]⟩
  else none

/-- Faults of the lexer: Go slice/index runtime panics. -/
inductive LexErr where
  | indexOutOfRange
  | sliceOutOfRange
deriving DecidableEq

/-- `strings.HasPrefix(s, "\"")`. -/
def startsWithQuote (s : List Char) : Bool :=
  match s with
  | [] => false
  | c :: _ => c = '"'

/-- `strings.HasSuffix(s, "\"")`. -/
def endsWithQuote (s : List Char) : Bool := startsWithQuote s.reverse

/-- Classification of one raw argument inside `Lex`'s argument loop:
quoted string, first-operator split, or bare `Int` token.  The quote case
reproduces the `arg[1 : len(arg)-1]` slice, which faults when `arg` is the
single character `"`. -/
def lexArg (rawArg : List Char) : Except LexErr (List Token) :=
  let arg := trimSpace rawArg
  if startsWithQuote arg && endsWithQuote arg then
    if arg.length < 2 then .error .sliceOutOfRange
    else .ok [⟨.STRING, (arg.drop 1).take (arg.length - 2)⟩]
  else
    match indexOfAny opChars arg with
    | some opIdx =>
      match arg.drop opIdx with
      | [] => .error .indexOutOfRange
      | c :: afterOp =>
        .ok (⟨.INT, trimSpace (arg.take opIdx)⟩ ::
              ((opTokenOf c).toList ++ [⟨.INT, trimSpace afterOp⟩]))
    | none => .ok [⟨.INT, arg⟩]

/-- `Lex`'s loop over the comma-separated arguments of one statement. -/
def lexArgs : List (List Char) → Except LexErr (List Token)
  | [] => .ok []
  | a :: as =>
    match lexArg a with
    | .error e => .error e
    | .ok ts =>
      match lexArgs as with
      | .error e => .error e
      | .ok rest => .ok (ts ++ rest)

/-- `Lex`'s loop over the words before `(`: `console` and `log` emit their
tokens, every other word is dropped. -/
def headerToks : List (List Char) → List Token
  | [] => []
  | w :: ws =>
    if w = "console".toList then ⟨.CONSOLE, w⟩ :: headerToks ws
    else if w = "log".toList then ⟨.LOG, w⟩ :: headerToks ws
    else headerToks ws

/-- Lexing of one trimmed nonempty statement segment.  A missing `(` faults at
`stmt[:startIndex]` with `startIndex = -1`; a missing (or misplaced) `)`
faults at `stmt[startIndex+1:endIndex]`. -/
def lexStmt (stmt : List Char) : Except LexErr (List Token) :=
  match indexOfChar '(' stmt with
  | none => .error .indexOutOfRange
  | some startIndex =>
    match lastIndexOfChar ')' stmt with
    | none => .error .indexOutOfRange
    | some endIndex =>
      if endIndex < startIndex + 1 then .error .indexOutOfRange
      else
        let wordsBefore := fieldsFunc (fun r => r = ' ' || r = '.') (stmt.take startIndex)
        let arguments := splitOnChar ',' ((stmt.drop (startIndex + 1)).take (endIndex - (startIndex + 1)))
        match lexArgs arguments with
        | .error e => .error e
        | .ok argToks => .ok (headerToks wordsBefore ++ argToks)

/-- `Lex`'s outer loop over the `;`-separated statement segments. -/
def lexStmts : List (List Char) → Except LexErr (List Token)
  | [] => .ok []
  | s :: ss =>
    let t := trimSpace s
    if t = [] then lexStmts ss
    else
      match lexStmt t with
      | .error e => .error e
      | .ok ts =>
        match lexStmts ss with
        | .error e => .error e
        | .ok rest => .ok (ts ++ rest)

/-- Model of `Lex` (src/main.go:150): split the input on `;` and lex each
nonempty trimmed segment in order. -/
def Lex (input : List Char) : Except LexErr (List Token) :=
  lexStmts (splitOnChar ';' input)

/-- The AST node variants of src/main.go (`ConsoleLogNode`, `StringNode`,
`IntNode`, `PlusNode`, `MinusNode`, `MultiplyNode`, `DivideNode`,
`ModuloNode`, `PowerNode`). -/
inductive Node where
  | consoleLog (args : List Node)
  | strLit (v : List Char)
  | intLit (v : List Char)
  | plus (l r : Node)
  | minus (l r : Node)
  | mult (l r : Node)
  | divide (l r : Node)
  | modulo (l r : Node)
  | power (l r : Node)

/-- The six binary operator kinds. -/
inductive OpKind where
  | add
  | sub
  | mul
  | div
  | mod
  | pow
deriving DecidableEq

/-- The operator kind a token kind selects in `Parse`'s `switch` over
`tokens[i+1].Type`; `none` for the kinds the switch does not handle. -/
def opOfType : TokenType → Option OpKind
  | .PLUS => some .add
  | .MINUS => some .sub
  | .MULTIPLY => some .mul
  | .DIVIDE => some .div
  | .MODULO => some .mod
  | .POWER => some .pow
  | _ => none

/-- The binary node `Parse` builds for operator kind `k` with `IntNode`
children holding literals `l` and `r`. -/
def mkBinNode (k : OpKind) (l r : List Char) : Node :=
  match k with
  | .add => .plus (.intLit l) (.intLit r)
  | .sub => .minus (.intLit l) (.intLit r)
  | .mul => .mult (.intLit l) (.intLit r)
  | .div => .divide (.intLit l) (.intLit r)
  | .mod => .modulo (.intLit l) (.intLit r)
  | .pow => .power (.intLit l) (.intLit r)

/-- The nodes appended by `Parse`'s `switch` on the middle token of an
`Int _ Int` window: one binary node for a recognized operator kind, nothing
for any other kind (the switch has no default case). -/
def mkBinList (t : TokenType) (l r : List Char) : List Node :=
  match opOfType t with
  | some k => [mkBinNode k l r]
  | none => []

/-- Failures of `Parse`: the explicit `panic("Invalid syntax")` and the
index-out-of-range runtime fault of `tokens[i+1]` at the end of input. -/
inductive ParseErr where
  | invalidSyntax
  | indexOutOfRange
deriving DecidableEq

/-- `Parse`'s inner argument-collection loop (src/main.go:220-245), written as
a scan over the remaining tokens with the accumulated argument nodes of the
current statement.  The first parameter models the cursor jump `i += 2` of
the binary-operator case: that many tokens are still to be passed over
without inspection.  On a `Console` token the current `ConsoleLogNode` is
closed and the outer-loop `Console Log` check runs again (inlined here); at
the end of input the current node is closed and the loop stops.  An `Int`
token looks two tokens ahead (`i+2 < len(tokens)`, i.e. `rest[1]?` exists):
if that token is also `Int`, all three tokens are consumed and `mkBinList`
decides what is appended. -/
def parseArgsLoop : Nat → List Node → List Token → Except ParseErr (List Node)
  | _, acc, [] => .ok [.consoleLog acc.reverse]
  | skip + 1, acc, _ :: rest => parseArgsLoop skip acc rest
  | 0, acc, t :: rest =>
    if t.type = .CONSOLE then
      match rest with
      | [] => .error .indexOutOfRange
      | t1 :: rest1 =>
        if t1.type = .LOG then
          match parseArgsLoop 0 [] rest1 with
          | .error e => .error e
          | .ok ns => .ok (.consoleLog acc.reverse :: ns)
        else .error .invalidSyntax
    else if t.type = .STRING then
      parseArgsLoop 0 (.strLit t.literal :: acc) rest
    else if t.type = .INT then
      match rest[0]?, rest[1]? with
      | some t1, some t2 =>
        if t2.type = .INT then
          parseArgsLoop 2 (mkBinList t1.type t.literal t2.literal ++ acc) rest
        else
          parseArgsLoop 0 (.intLit t.literal :: acc) rest
      | _, _ =>
        parseArgsLoop 0 (.intLit t.literal :: acc) rest
    else
      parseArgsLoop 0 acc rest

/-- Model of `Parse` (src/main.go:211): each statement must open with a
`Console` token immediately followed by `Log`; a lone trailing `Console`
faults at `tokens[i+1]`, any other opening hits `panic("Invalid syntax")`. -/
def Parse : List Token → Except ParseErr (List Node)
  | [] => .ok []
  | t :: rest =>
    if t.type = .CONSOLE then
      match rest with
      | [] => .error .indexOutOfRange
      | t1 :: rest1 =>
        if t1.type = .LOG then parseArgsLoop 0 [] rest1
        else .error .invalidSyntax
    else .error .invalidSyntax

/-- Runtime faults of node execution: Go's integer-divide-by-zero panic. -/
inductive ExecErr where
  | divideByZero
deriving DecidableEq

mutual

/-- Model of the `Execute` methods of the node types (src/main.go:42-147).
Each arithmetic node executes its children, converts the texts with the
error-discarding `strconv.Atoi`, applies the 64-bit operation and renders the
result; `DivideNode` and `ModuloNode` fault when the right value is zero. -/
def Execute : Node → Except ExecErr (List Char)
  | .consoleLog args =>
    match execList args with
    | .error e => .error e
    | .ok parts => .ok (List.intercalate [' '] parts)
  | .strLit v => .ok v
  | .intLit v => .ok v
  | .plus l r =>
    match Execute l with
    | .error e => .error e
    | .ok ls =>
      match Execute r with
      | .error e => .error e
      | .ok rs => .ok (itoa (int64wrap (atoi ls + atoi rs)))
  | .minus l r =>
    match Execute l with
    | .error e => .error e
    | .ok ls =>
      match Execute r with
      | .error e => .error e
      | .ok rs => .ok (itoa (int64wrap (atoi ls - atoi rs)))
  | .mult l r =>
    match Execute l with
    | .error e => .error e
    | .ok ls =>
      match Execute r with
      | .error e => .error e
      | .ok rs => .ok (itoa (int64wrap (atoi ls * atoi rs)))
  | .divide l r =>
    match Execute l with
    | .error e => .error e
    | .ok ls =>
      match Execute r with
      | .error e => .error e
      | .ok rs =>
        if atoi rs = 0 then .error .divideByZero
        else .ok (itoa (int64wrap (Int.tdiv (atoi ls) (atoi rs))))
  | .modulo l r =>
    match Execute l with
    | .error e => .error e
    | .ok ls =>
      match Execute r with
      | .error e => .error e
      | .ok rs =>
        if atoi rs = 0 then .error .divideByZero
        else .ok (itoa (Int.tmod (atoi ls) (atoi rs)))
  | .power l r =>
    match Execute l with
    | .error e => .error e
    | .ok ls =>
      match Execute r with
      | .error e => .error e
      | .ok rs => .ok (itoa (powFloat (atoi ls) (atoi rs)))

/-- Execution of a `ConsoleLogNode`'s argument list in order, stopping at the
first fault (a panic in Go aborts the whole loop). -/
def execList : List Node → Except ExecErr (List (List Char))
  | [] => .ok []
  | n :: ns =>
    match Execute n with
    | .error e => .error e
    | .ok s =>
      match execList ns with
      | .error e => .error e
      | .ok ss => .ok (s :: ss)

end

/-- Model of `Eval` (src/main.go:257): print each node's result in order.
The returned pair is the list of lines actually emitted and the fault, if
any, that stopped the loop (lines before the fault remain emitted). -/
def Eval : List Node → List (List Char) × Option ExecErr
  | [] => ([], none)
  | n :: ns =>
    match Execute n with
    | .error e => ([], some e)
    | .ok line =>
      match Eval ns with
      | (lines, e) => (line :: lines, e)

/-- A fault anywhere in the pipeline. -/
inductive RunErr where
  | lexE (e : LexErr)
  | parseE (e : ParseErr)
  | execE (e : ExecErr)
deriving DecidableEq

/-- The whole pipeline of `main` restricted to its core contract: lex, parse,
evaluate, and report the ordered output lines plus the fault (if any) that
aborted the run.  The debug token/AST dumps of `main` are not modelled. -/
def run (input : List Char) : List (List Char) × Option RunErr :=
  match Lex input with
  | .error e => ([], some (.lexE e))
  | .ok toks =>
    match Parse toks with
    | .error e => ([], some (.parseE e))
    | .ok nodes =>
      match Eval nodes with
      | (lines, none) => (lines, none)
      | (lines, some e) => (lines, some (.execE e))

/-- The source character of each operator kind. -/
def opCharOf : OpKind → Char
  | .add => '+'
  | .sub => '-'
  | .mul => '*'
  | .div => '/'
  | .mod => '%'
  | .pow => '^'

/-- The mathematical (unwrapped) value of each operator on 64-bit values:
Go's `+ - *`, its truncating `/` and `%`, and the truncated real power. -/
def opDenote : OpKind → Int → Int → Int
  | .add, a, b => a + b
  | .sub, a, b => a - b
  | .mul, a, b => a * b
  | .div, a, b => Int.tdiv a b
  | .mod, a, b => Int.tmod a b
  | .pow, a, b => powTrunc a b

/-- The program text `console.log(<l><op><r>);` for literal texts `l`, `r`
and operator kind `k`. -/
def mkArithStmt (l : List Char) (k : OpKind) (r : List Char) : List Char :=
  "console.log(".toList ++ l ++ opCharOf k :: r ++ ");".toList

/-- The token kind of each operator kind. -/
def opTypeOf : OpKind → TokenType
  | .add => .PLUS
  | .sub => .MINUS
  | .mul => .MULTIPLY
  | .div => .DIVIDE
  | .mod => .MODULO
  | .pow => .POWER

/-- The text produced by executing a binary node of kind `k` on operand
values `a` and `b` (for `div`/`mod` only meaningful when `b ≠ 0`). -/
def binOut (k : OpKind) (a b : Int) : List Char :=
  match k with
  | .add => itoa (int64wrap (a + b))
  | .sub => itoa (int64wrap (a - b))
  | .mul => itoa (int64wrap (a * b))
  | .div => itoa (int64wrap (Int.tdiv a b))
  | .mod => itoa (Int.tmod a b)
  | .pow => itoa (powFloat a b)

/-- The characters an accepted numeral can contain. -/
def numeralChar (x : Char) : Prop := x = '-' ∨ x = '+' ∨ isDigitChar x = true

theorem indexWhere_eq_none (p : Char → Bool) (s : List Char)
    (h : ∀ x ∈ s, p x = false) : indexWhere p s = none := by
  induction s with
  | nil => rfl
  | cons a l ih =>
    have ha : p a = false := h a (by simp)
    simp [indexWhere, ha, ih (fun x hx => h x (by simp [hx]))]

theorem indexWhere_append (p : Char → Bool) (xs : List Char) (c : Char)
    (ys : List Char) (h : ∀ x ∈ xs, p x = false) (hc : p c = true) :
    indexWhere p (xs ++ c :: ys) = some xs.length := by
  induction xs with
  | nil => simp [indexWhere, hc]
  | cons a l ih =>
    have ha : p a = false := h a (by simp)
    have ihl := ih (fun x hx => h x (by simp [hx]))
    simp [indexWhere, ha, ihl]

theorem indexOfChar_eq_none (c : Char) (s : List Char) (h : c ∉ s) :
    indexOfChar c s = none := by
  refine indexWhere_eq_none _ _ (fun x hx => ?_)
  simp only [decide_eq_false_iff_not]
  rintro rfl
  exact h hx

theorem indexOfChar_append (c : Char) (xs ys : List Char) (h : c ∉ xs) :
    indexOfChar c (xs ++ c :: ys) = some xs.length := by
  refine indexWhere_append _ _ _ _ (fun x hx => ?_) (by simp)
  simp only [decide_eq_false_iff_not]
  rintro rfl
  exact h hx

theorem lastIndexOfChar_eq_none (c : Char) (s : List Char) (h : c ∉ s) :
    lastIndexOfChar c s = none := by
  unfold lastIndexOfChar
  rw [indexOfChar_eq_none c _ (by simpa using h)]
  rfl

theorem lastIndexOfChar_concat (c : Char) (xs : List Char) :
    lastIndexOfChar c (xs ++ [c]) = some xs.length := by
  unfold lastIndexOfChar indexOfChar
  rw [List.reverse_append]
  simp [indexWhere]

theorem splitByPred_of_none (p : Char → Bool) (s : List Char)
    (h : ∀ x ∈ s, p x = false) : splitByPred p s = [s] := by
  induction s with
  | nil => rfl
  | cons a l ih =>
    have ha : p a = false := h a (by simp)
    have ihl := ih (fun x hx => h x (by simp [hx]))
    simp [splitByPred, ha, ihl]

theorem splitByPred_append (p : Char → Bool) (xs : List Char) (c : Char)
    (ys : List Char) (h : ∀ x ∈ xs, p x = false) (hc : p c = true) :
    splitByPred p (xs ++ c :: ys) = xs :: splitByPred p ys := by
  induction xs with
  | nil => simp [splitByPred, hc]
  | cons a l ih =>
    have ha : p a = false := h a (by simp)
    have ihl := ih (fun x hx => h x (by simp [hx]))
    simp [splitByPred, ha, ihl]

theorem splitOnChar_of_none (c : Char) (s : List Char) (h : c ∉ s) :
    splitOnChar c s = [s] := by
  refine splitByPred_of_none _ _ (fun x hx => ?_)
  simp only [decide_eq_false_iff_not]
  rintro rfl
  exact h hx

theorem splitOnChar_append (c : Char) (xs ys : List Char) (h : c ∉ xs) :
    splitOnChar c (xs ++ c :: ys) = xs :: splitOnChar c ys := by
  refine splitByPred_append _ _ _ _ (fun x hx => ?_) (by simp)
  simp only [decide_eq_false_iff_not]
  rintro rfl
  exact h hx

theorem dropWhile_eq_self_of (p : Char → Bool) (s : List Char)
    (h : ∀ x ∈ s, p x = false) : s.dropWhile p = s := by
  cases s with
  | nil => rfl
  | cons a l => simp [List.dropWhile, h a (by simp)]

theorem trimSpace_eq_self (s : List Char)
    (h : ∀ x ∈ s, isSpaceChar x = false) : trimSpace s = s := by
  unfold trimSpace
  rw [dropWhile_eq_self_of _ _ h,
    dropWhile_eq_self_of _ _ (fun x hx => h x (List.mem_reverse.mp hx)),
    List.reverse_reverse]

/-! ### Character classes -/

theorem space_cases {x : Char} (h : isSpaceChar x = true) :
    x = ' ' ∨ x = '\t' ∨ x = '\n' ∨ x = '\r' ∨ x = '\x0B' ∨ x = '\x0C' := by
  simpa [isSpaceChar, or_assoc] using h

theorem op_cases {x : Char} (h : opChars.contains x = true) :
    x = '+' ∨ x = '-' ∨ x = '*' ∨ x = '%' ∨ x = '/' ∨ x = '^' := by
  simpa [opChars, List.contains, List.elem_iff, or_comm, or_assoc, or_left_comm] using h

theorem digit_nonspace {x : Char} (h : isDigitChar x = true) :
    isSpaceChar x = false := by
  cases hs : isSpaceChar x with
  | false => rfl
  | true =>
    rcases space_cases hs with rfl | rfl | rfl | rfl | rfl | rfl <;> exact absurd h (by decide)

theorem digit_not_op {x : Char} (h : isDigitChar x = true) :
    opChars.contains x = false := by
  cases hs : opChars.contains x with
  | false => rfl
  | true =>
    rcases op_cases hs with rfl | rfl | rfl | rfl | rfl | rfl <;> exact absurd h (by decide)

theorem digit_ne {x c : Char} (h : isDigitChar x = true)
    (hc : isDigitChar c = false) : x ≠ c := by
  rintro rfl
  rw [h] at hc
  simp at hc

theorem numeralChar_nonspace {x : Char} (h : numeralChar x) :
    isSpaceChar x = false := by
  rcases h with rfl | rfl | h
  · decide
  · decide
  · exact digit_nonspace h

theorem numeralChar_ne {x c : Char} (h : numeralChar x) (hm : c ≠ '-')
    (hp : c ≠ '+') (hd : isDigitChar c = false) : x ≠ c := by
  rcases h with rfl | rfl | h
  · exact fun e => hm e.symm
  · exact fun e => hp e.symm
  · exact digit_ne h hd

theorem op_nonspace {x : Char} (h : opChars.contains x = true) :
    isSpaceChar x = false := by
  rcases op_cases h with rfl | rfl | rfl | rfl | rfl | rfl <;> decide

/-! ### Numeral parsing and 64-bit range facts -/

theorem numBody_of_digits {s : List Char} (h1 : s ≠ [])
    (h2 : ∀ x ∈ s, isDigitChar x = true) : numBody s = some (digitsVal s) := by
  unfold numBody
  rw [if_pos]
  rw [Bool.and_eq_true, Bool.not_eq_true', List.isEmpty_eq_false_iff_exists_mem,
    List.all_eq_true]
  refine ⟨?_, h2⟩
  cases s with
  | nil => exact absurd rfl h1
  | cons a l => exact ⟨a, by simp⟩

theorem numBody_some_digits {s : List Char} {n : Nat} (h : numBody s = some n) :
    ∀ x ∈ s, isDigitChar x = true := by
  unfold numBody at h
  split at h
  · next hc =>
    rw [Bool.and_eq_true, List.all_eq_true] at hc
    exact hc.2
  · exact absurd h (by simp)

theorem numParse_of_digits {s : List Char} (h1 : s ≠ [])
    (h2 : ∀ x ∈ s, isDigitChar x = true) :
    numParse s = some ((digitsVal s : Nat) : Int) := by
  match s, h1 with
  | c :: rest, _ =>
    have hc : isDigitChar c = true := h2 c (by simp)
    have hcm : c ≠ '-' := digit_ne hc (by decide)
    have hcp : c ≠ '+' := digit_ne hc (by decide)
    rw [numParse, if_neg hcm, if_neg hcp, numBody_of_digits (by simp) h2]

theorem numParse_chars {s : List Char} {v : Int} (h : numParse s = some v) :
    ∀ x ∈ s, numeralChar x := by
  match s with
  | [] => exact absurd h (by simp [numParse])
  | c :: rest =>
    rw [numParse] at h
    by_cases hm : c = '-'
    · subst hm
      rw [if_pos rfl] at h
      cases hn : numBody rest with
      | none => rw [hn] at h; exact absurd h (by simp)
      | some n =>
        intro x hx
        rcases List.mem_cons.mp hx with rfl | hx
        · exact Or.inl rfl
        · exact Or.inr (Or.inr (numBody_some_digits hn x hx))
    · rw [if_neg hm] at h
      by_cases hp : c = '+'
      · subst hp
        rw [if_pos rfl] at h
        cases hn : numBody rest with
        | none => rw [hn] at h; exact absurd h (by simp)
        | some n =>
          intro x hx
          rcases List.mem_cons.mp hx with rfl | hx
          · exact Or.inr (Or.inl rfl)
          · exact Or.inr (Or.inr (numBody_some_digits hn x hx))
      · rw [if_neg hp] at h
        cases hn : numBody (c :: rest) with
        | none => rw [hn] at h; exact absurd h (by simp)
        | some n =>
          intro x hx
          exact Or.inr (Or.inr (numBody_some_digits hn x hx))

theorem atoi_of_numParse {s : List Char} {v : Int} (h : numParse s = some v) :
    atoi s = int64clamp v := by
  unfold atoi
  rw [h]

theorem atoi_of_numParse_none {s : List Char} (h : numParse s = none) :
    atoi s = 0 := by
  unfold atoi
  rw [h]

theorem int64clamp_eq_self {v : Int} (h1 : int64Min ≤ v) (h2 : v ≤ int64Max) :
    int64clamp v = v := by
  unfold int64clamp
  unfold int64Min int64Max at *
  rw [if_neg (by omega), if_neg (by omega)]

theorem int64wrap_eq_self {v : Int} (h1 : int64Min ≤ v) (h2 : v ≤ int64Max) :
    int64wrap v = v := by
  unfold int64wrap
  unfold int64Min int64Max at *
  rw [Int.emod_eq_of_lt (by omega) (by omega)]
  ring

theorem roundF64Nat_small {n : Nat} (h : n < 2 ^ 53) : roundF64Nat n = n := by
  unfold roundF64Nat
  rw [if_pos h]

theorem toFloat64Int_eq_self {v : Int} (h0 : 0 ≤ v) (h : v < 2 ^ 53) :
    toFloat64Int v = v := by
  unfold toFloat64Int
  rw [if_neg (by omega)]
  rw [roundF64Nat_small (by omega)]
  omega

theorem powFloat_eq_powTrunc {a : Int} (b : Int) (h0 : 0 ≤ a)
    (h : a < 2 ^ 53) : powFloat a b = powTrunc a b := by
  unfold powFloat
  rw [toFloat64Int_eq_self h0 h]

/-! ### Operator kind facts -/

theorem opCharOf_mem (k : OpKind) : opChars.contains (opCharOf k) = true := by
  cases k <;> decide

theorem opCharOf_nonspace (k : OpKind) : isSpaceChar (opCharOf k) = false := by
  cases k <;> decide

theorem opTokenOf_opCharOf (k : OpKind) :
    opTokenOf (opCharOf k) = some ⟨opTypeOf k, [opCharOf k]⟩ := by
  cases k <;> rfl

theorem opOfType_opTypeOf (k : OpKind) : opOfType (opTypeOf k) = some k := by
  cases k <;> rfl

theorem opTypeOf_ne_INT (k : OpKind) : opTypeOf k ≠ .INT := by
  cases k <;> decide

theorem opTypeOf_ne_CONSOLE (k : OpKind) : opTypeOf k ≠ .CONSOLE := by
  cases k <;> decide

/-! ### The lexer's first-operator split -/

/-- For an unquoted trimmed argument, the lexer splits at the first operator
character: `Int` of the (trimmed) text before it, the operator token, `Int`
of the (trimmed) text after it, in that order. -/
theorem lexArg_split (before : List Char) (c : Char) (after : List Char)
    (hc : opChars.contains c = true)
    (hb : ∀ x ∈ before, opChars.contains x = false)
    (htrim : trimSpace (before ++ c :: after) = before ++ c :: after)
    (hq : (startsWithQuote (before ++ c :: after) &&
            endsWithQuote (before ++ c :: after)) = false) :
    ∃ tk, opTokenOf c = some tk ∧
      lexArg (before ++ c :: after) =
        .ok [⟨.INT, trimSpace before⟩, tk, ⟨.INT, trimSpace after⟩] := by
  have hidx : indexOfAny opChars (before ++ c :: after) = some before.length := by
    unfold indexOfAny
    exact indexWhere_append _ _ _ _ hb hc
  have hex : ∃ tk, opTokenOf c = some tk := by
    rcases op_cases hc with rfl | rfl | rfl | rfl | rfl | rfl <;> exact ⟨_, rfl⟩
  rcases hex with ⟨tk, htk⟩
  refine ⟨tk, htk, ?_⟩
  unfold lexArg
  simp only [htrim]
  rw [if_neg (by rw [hq]; exact Bool.false_ne_true)]
  simp only [hidx, List.drop_left, List.take_left, htk, Option.toList_some]
  rfl

/-! ### Execution of parser-built binary nodes -/

theorem Execute_mkBinNode (k : OpKind) (l r : List Char)
    (h : (k = .div ∨ k = .mod) → atoi r ≠ 0) :
    Execute (mkBinNode k l r) = .ok (binOut k (atoi l) (atoi r)) := by
  cases k with
  | add => simp [mkBinNode, Execute, binOut]
  | sub => simp [mkBinNode, Execute, binOut]
  | mul => simp [mkBinNode, Execute, binOut]
  | div =>
    have hr := h (Or.inl rfl)
    simp [mkBinNode, Execute, binOut, hr]
  | mod =>
    have hr := h (Or.inr rfl)
    simp [mkBinNode, Execute, binOut, hr]
  | pow => simp [mkBinNode, Execute, binOut]

/-! ### The claims -/

/-- C10: for an argument that is exactly the single character `"`, the lexer
faults: the argument both starts and ends with a quote, so the stripping
slice `arg[1:0]` is out of range; `Lex` returns no token sequence for the
statement `console.log(");`. -/
theorem C10_single_quote_arg_faults :
    lexArg ['"'] = .error .sliceOutOfRange ∧
    Lex ("console.log(\");".toList) = .error .sliceOutOfRange :=
  ⟨rfl, rfl⟩

/-- C2: a `divide` or `modulo` node whose right operand evaluates to text
converting to 0 raises the fatal divide-by-zero failure (and the failure is
the distinctly named one, not the silent zero of the numeral fallback); the
program `console.log(5/0);` halts with that failure and produces no output
line. -/
theorem C2_div_mod_zero_fatal :
    (∀ (l r : Node) (s t : List Char),
      Execute l = .ok s → Execute r = .ok t → atoi t = 0 →
      Execute (.divide l r) = .error .divideByZero ∧
      Execute (.modulo l r) = .error .divideByZero) ∧
    run ("console.log(5/0);".toList) = ([], some (.execE .divideByZero)) := by
  refine ⟨?_, rfl⟩
  intro l r s t hl hr ht
  constructor
  · simp [Execute, hl, hr, ht]
  · simp [Execute, hl, hr, ht]

/-- C2 witness: the theorem applied at the concrete node `5/0`. -/
theorem C2_div_mod_zero_fatal_witness :
    Execute (Node.intLit ['5']) = .ok ['5'] ∧
    Execute (Node.intLit ['0']) = .ok ['0'] ∧
    atoi ['0'] = 0 ∧
    Execute (.divide (.intLit ['5']) (.intLit ['0'])) = .error .divideByZero ∧
    Execute (.modulo (.intLit ['5']) (.intLit ['0'])) = .error .divideByZero :=
  ⟨rfl, rfl, rfl,
    (C2_div_mod_zero_fatal.1 (.intLit ['5']) (.intLit ['0']) ['5'] ['0']
      rfl rfl rfl).1,
    (C2_div_mod_zero_fatal.1 (.intLit ['5']) (.intLit ['0']) ['5'] ['0']
      rfl rfl rfl).2⟩

/-- C3 counterexample: an unparsable operand does NOT always let computation
proceed without error.  `x` does not parse, is treated as 0, and for the
divide node `5/x` that 0 is the divisor, so execution raises the fatal
divide-by-zero failure rather than proceeding. -/
theorem C3_counterexample :
    numParse ['x'] = none ∧
    Execute (.divide (.intLit ['5']) (.intLit ['x'])) = .error .divideByZero :=
  ⟨rfl, rfl⟩

/-- C3 (amended): a non-numeric operand text converts to the value 0 and
computation proceeds without error, EXCEPT when the operator is `div` or
`mod` and the right operand's text converts to 0: then the fatal
divide-by-zero failure is raised.  `console.log(x+2);` prints `2`. -/
theorem C3_unparsable_operand_is_zero :
    (∀ s : List Char, numParse s = none → atoi s = 0) ∧
    (∀ l r : List Char, Execute (.plus (.intLit l) (.intLit r)) =
      .ok (itoa (int64wrap (atoi l + atoi r)))) ∧
    (∀ (k : OpKind) (l r : List Char), ((k = .div ∨ k = .mod) → atoi r ≠ 0) →
      ∃ out, Execute (mkBinNode k l r) = .ok out) ∧
    run ("console.log(x+2);".toList) = ([['2']], none) := by
  refine ⟨?_, ?_, ?_, rfl⟩
  · exact fun s h => atoi_of_numParse_none h
  · intro l r
    simp [Execute]
  · intro k l r h
    exact ⟨_, Execute_mkBinNode k l r h⟩

/-- C3 witness: the theorem applied at the unparsable operand `x` and at the
concrete nodes `x+2` and `6/3`. -/
theorem C3_unparsable_operand_is_zero_witness :
    numParse ['x'] = none ∧ atoi ['x'] = 0 ∧
    Execute (.plus (.intLit ['x']) (.intLit ['2'])) =
      .ok (itoa (int64wrap (atoi ['x'] + atoi ['2']))) ∧
    ((OpKind.div = .div ∨ OpKind.div = .mod) → atoi ['3'] ≠ 0) ∧
    (∃ out, Execute (mkBinNode .div ['6'] ['3']) = .ok out) :=
  ⟨rfl, C3_unparsable_operand_is_zero.1 ['x'] rfl,
    C3_unparsable_operand_is_zero.2.1 ['x'] ['2'],
    fun _ => by decide,
    C3_unparsable_operand_is_zero.2.2.1 .div ['6'] ['3'] (fun _ => by decide)⟩

/-- C7: a `consoleLog` node executes its arguments in order and joins the
results with single spaces; `console.log("sum:", 2+3);` prints `sum: 5`. -/
theorem C7_logcall_joins_with_space :
    (∀ (args : List Node) (parts : List (List Char)),
      execList args = .ok parts →
      Execute (.consoleLog args) = .ok (List.intercalate [' '] parts)) ∧
    run ("console.log(\"sum:\", 2+3);".toList) = ([("sum: 5".toList)], none) := by
  refine ⟨?_, rfl⟩
  intro args parts h
  simp [Execute, h]

/-- C7 witness: the theorem applied at a concrete two-argument call. -/
theorem C7_logcall_joins_with_space_witness :
    execList [Node.strLit ['a'], Node.strLit ['b']] = .ok [['a'], ['b']] ∧
    Execute (.consoleLog [Node.strLit ['a'], Node.strLit ['b']]) =
      .ok ['a', ' ', 'b'] :=
  ⟨rfl, C7_logcall_joins_with_space.1 [Node.strLit ['a'], Node.strLit ['b']]
    [['a'], ['b']] rfl⟩

/-- C8: evaluation emits one line per node in program order;
`console.log(1+1); console.log(2+2);` prints `2` then `4`. -/
theorem C8_eval_preserves_order :
    (∀ (nodes : List Node) (lines : List (List Char)),
      execList nodes = .ok lines → Eval nodes = (lines, none)) ∧
    run ("console.log(1+1); console.log(2+2);".toList) =
      ([['2'], ['4']], none) := by
  refine ⟨?_, rfl⟩
  intro nodes
  induction nodes with
  | nil =>
    intro lines h
    simp only [execList] at h
    cases h
    rfl
  | cons n ns ih =>
    intro lines h
    rw [execList] at h
    cases he : Execute n with
    | error e => rw [he] at h; exact absurd h (by simp)
    | ok s =>
      rw [he] at h
      cases hl : execList ns with
      | error e => rw [hl] at h; exact absurd h (by simp)
      | ok ss =>
        rw [hl] at h
        cases h
        rw [Eval, he, ih ss hl]

/-- C8 witness: the theorem applied at a concrete one-node program. -/
theorem C8_eval_preserves_order_witness :
    execList [Node.strLit ['a']] = .ok [['a']] ∧
    Eval [Node.strLit ['a']] = ([['a']], none) :=
  ⟨rfl, C8_eval_preserves_order.1 [Node.strLit ['a']] [['a']] rfl⟩

/-- C9: a nonempty trimmed statement segment with no `(` (or no `)`) makes
the lexer fault with an index-out-of-range error instead of producing tokens;
`console.log 5;` faults this way. -/
theorem C9_missing_paren_faults :
    (∀ s : List Char, s ≠ [] → ('(' ∉ s ∨ ')' ∉ s) →
      lexStmt s = .error .indexOutOfRange) ∧
    Lex ("console.log 5;".toList) = .error .indexOutOfRange := by
  refine ⟨?_, rfl⟩
  intro s _ h
  rcases h with h | h
  · unfold lexStmt
    rw [indexOfChar_eq_none _ _ h]
  · cases hi : indexOfChar '(' s with
    | none => unfold lexStmt; rw [hi]
    | some i =>
      unfold lexStmt
      rw [hi, lastIndexOfChar_eq_none _ _ h]

/-- C9 witness: the theorem applied at the one-character segment `a`. -/
theorem C9_missing_paren_faults_witness :
    (['a'] : List Char) ≠ [] ∧ '(' ∉ (['a'] : List Char) ∧
    lexStmt ['a'] = .error .indexOutOfRange :=
  ⟨by decide, by decide,
    C9_missing_paren_faults.1 ['a'] (by decide) (Or.inl (by decide))⟩

/-- C6: an unquoted argument containing an operator character is split at the
first one: `Int` of the trimmed text before it, the operator token, and
`Int` of the trimmed text after it taken verbatim;
`1+2*3` lexes as `Int "1"`, `Plus`, `Int "2*3"`. -/
theorem C6_first_operator_wins :
    (∀ (before : List Char) (c : Char) (after : List Char),
      opChars.contains c = true →
      (∀ x ∈ before, opChars.contains x = false) →
      trimSpace (before ++ c :: after) = before ++ c :: after →
      (startsWithQuote (before ++ c :: after) &&
        endsWithQuote (before ++ c :: after)) = false →
      ∃ tk, opTokenOf c = some tk ∧
        lexArg (before ++ c :: after) =
          .ok [⟨.INT, trimSpace before⟩, tk, ⟨.INT, trimSpace after⟩]) ∧
    lexArg ("1+2*3".toList) =
      .ok [⟨.INT, ['1']⟩, ⟨.PLUS, ['+']⟩, ⟨.INT, ['2', '*', '3']⟩] :=
  ⟨lexArg_split, rfl⟩

/-- C6 witness: the theorem applied at the concrete argument `1+2`. -/
theorem C6_first_operator_wins_witness :
    opChars.contains '+' = true ∧
    trimSpace (['1'] ++ '+' :: ['2']) = ['1'] ++ '+' :: ['2'] ∧
    (∃ tk, opTokenOf '+' = some tk ∧
      lexArg (['1'] ++ '+' :: ['2']) =
        .ok [⟨.INT, trimSpace ['1']⟩, tk, ⟨.INT, trimSpace ['2']⟩]) :=
  ⟨by decide, rfl,
    C6_first_operator_wins.1 ['1'] '+' ['2'] (by decide) (by decide) rfl rfl⟩

/-- C1 counterexample: at an `Int` token whose two-ahead token is also `Int`,
the middle token need NOT be a recognized operator: for the argument tokens
`Int "1", Int "2", Int "3"` (from `console.log(1,2,3);`) the parser consumes
three tokens, the switch on the middle `Int` token matches no case, and NO
node at all is emitted for them — the statement parses to a `consoleLog`
node with an empty argument list, so `Int` tokens ARE dropped. -/
theorem C1_counterexample :
    opOfType .INT = none ∧
    Parse [⟨.CONSOLE, "console".toList⟩, ⟨.LOG, "log".toList⟩,
      ⟨.INT, ['1']⟩, ⟨.INT, ['2']⟩, ⟨.INT, ['3']⟩] = .ok [.consoleLog []] :=
  ⟨rfl, rfl⟩

theorem parseArgsLoop_nil (n : Nat) (acc : List Node) :
    parseArgsLoop n acc [] = .ok [.consoleLog acc.reverse] := by
  cases n <;> rfl

theorem parseArgsLoop_skip2 (acc : List Node) (x y : Token)
    (rest : List Token) :
    parseArgsLoop 2 acc (x :: y :: rest) = parseArgsLoop 0 acc rest := rfl

/-- C1 (amended): at an `Int` token during argument collection, when the
token two positions ahead exists and is also `Int`, the parser always
consumes all three tokens, but what it emits depends on the middle token: one
`BinaryOp` node when the middle token is a recognized operator kind, and NO
node at all otherwise (those `Int` tokens are dropped).  When the two-ahead
token is missing or is not `Int`, a bare `IntLiteral` node is emitted for
the single `Int` token. -/
theorem C1_int_lookahead :
    (∀ (acc : List Node) (lit : List Char) (t1 t2 : Token)
        (rest : List Token) (k : OpKind),
      opOfType t1.type = some k → t2.type = .INT →
      parseArgsLoop 0 acc (⟨.INT, lit⟩ :: t1 :: t2 :: rest) =
        parseArgsLoop 0 (mkBinNode k lit t2.literal :: acc) rest) ∧
    (∀ (acc : List Node) (lit : List Char) (t1 t2 : Token)
        (rest : List Token),
      opOfType t1.type = none → t2.type = .INT →
      parseArgsLoop 0 acc (⟨.INT, lit⟩ :: t1 :: t2 :: rest) =
        parseArgsLoop 0 acc rest) ∧
    (∀ (acc : List Node) (lit : List Char) (t1 t2 : Token)
        (rest : List Token),
      t2.type ≠ .INT →
      parseArgsLoop 0 acc (⟨.INT, lit⟩ :: t1 :: t2 :: rest) =
        parseArgsLoop 0 (.intLit lit :: acc) (t1 :: t2 :: rest)) ∧
    (∀ (acc : List Node) (lit : List Char) (t1 : Token),
      parseArgsLoop 0 acc [⟨.INT, lit⟩, t1] =
        parseArgsLoop 0 (.intLit lit :: acc) [t1]) ∧
    (∀ (acc : List Node) (lit : List Char),
      parseArgsLoop 0 acc [⟨.INT, lit⟩] =
        .ok [.consoleLog (Node.intLit lit :: acc).reverse]) := by
  refine ⟨?_, ?_, ?_, ?_, ?_⟩
  · rintro acc lit ⟨ty1, lit1⟩ ⟨ty2, lit2⟩ rest k hk ht2
    simp only at hk ht2
    subst ht2
    rw [parseArgsLoop]
    simp [mkBinList, hk, parseArgsLoop_skip2]
  · rintro acc lit ⟨ty1, lit1⟩ ⟨ty2, lit2⟩ rest hk ht2
    simp only at hk ht2
    subst ht2
    rw [parseArgsLoop]
    simp [mkBinList, hk, parseArgsLoop_skip2]
  · rintro acc lit ⟨ty1, lit1⟩ ⟨ty2, lit2⟩ rest ht2
    simp only at ht2
    rw [parseArgsLoop]
    simp [ht2]
  · intro acc lit t1
    rfl
  · intro acc lit
    rfl

theorem parseArgsLoop_int_pair (acc : List Node) (t t1 t2 : Token)
    (rest : List Token) (h : t.type = .INT) (h2 : t2.type = .INT) :
    parseArgsLoop 0 acc (t :: t1 :: t2 :: rest) =
      parseArgsLoop 0 (mkBinList t1.type t.literal t2.literal ++ acc) rest := by
  obtain ⟨ty, lit⟩ := t
  obtain ⟨ty2, lit2⟩ := t2
  simp only at h h2
  subst h
  subst h2
  rw [parseArgsLoop.eq_def]
  simp [parseArgsLoop_skip2]

theorem lexStmts_cons (s : List Char) (ss : List (List Char)) :
    lexStmts (s :: ss) =
      if trimSpace s = [] then lexStmts ss
      else
        match lexStmt (trimSpace s) with
        | .error e => .error e
        | .ok ts =>
          match lexStmts ss with
          | .error e => .error e
          | .ok rest => .ok (ts ++ rest) := by
  rw [lexStmts.eq_def]

theorem Lex_mkArithStmt (k : OpKind) (l r : List Char) (vr : Int)
    (hl1 : l ≠ []) (hl2 : ∀ x ∈ l, isDigitChar x = true)
    (hr : numParse r = some vr) :
    Lex (mkArithStmt l k r) =
      .ok [⟨.CONSOLE, "console".toList⟩, ⟨.LOG, "log".toList⟩,
        ⟨.INT, l⟩, ⟨opTypeOf k, [opCharOf k]⟩, ⟨.INT, r⟩] := by
  have hrch : ∀ x ∈ r, numeralChar x := numParse_chars hr
  have hP12 : ("console.log(".toList : List Char) =
      "console.log".toList ++ ['('] := by decide
  have hTail : (");".toList : List Char) = [')'] ++ [';'] := by decide
  -- membership classification of the argument characters
  have hargch : ∀ x ∈ l ++ opCharOf k :: r,
      isDigitChar x = true ∨ opChars.contains x = true ∨ numeralChar x := by
    intro x hx
    rcases List.mem_append.mp hx with hx | hx
    · exact Or.inl (hl2 x hx)
    · rcases List.mem_cons.mp hx with rfl | hx
      · exact Or.inr (Or.inl (opCharOf_mem k))
      · exact Or.inr (Or.inr (hrch x hx))
  have hargno : ∀ c0 : Char, isDigitChar c0 = false →
      opChars.contains c0 = false → c0 ≠ '-' → c0 ≠ '+' →
      c0 ∉ l ++ opCharOf k :: r := by
    intro c0 h1 h2 h3 h4 hmem
    rcases hargch c0 hmem with h | h | h
    · rw [h1] at h; cases h
    · rw [h2] at h; cases h
    · rcases h with rfl | rfl | h5
      · exact h3 rfl
      · exact h4 rfl
      · rw [h1] at h5; cases h5
  have harg_ns : ∀ x ∈ l ++ opCharOf k :: r, isSpaceChar x = false := by
    intro x hx
    rcases hargch x hx with h | h | h
    · exact digit_nonspace h
    · exact op_nonspace h
    · exact numeralChar_nonspace h
  -- the statement segment and its shape
  have hm : mkArithStmt l k r =
      ("console.log(".toList ++ (l ++ opCharOf k :: r ++ [')'])) ++ ';' :: [] := by
    unfold mkArithStmt
    rw [hTail]
    simp [List.append_assoc]
  have hsemi_seg : ';' ∉ "console.log(".toList ++ (l ++ opCharOf k :: r ++ [')']) := by
    intro hmem
    rcases List.mem_append.mp hmem with h | h
    · revert h; decide
    · rw [show l ++ opCharOf k :: r ++ [')'] = (l ++ opCharOf k :: r) ++ [')'] by
        simp] at h
      rcases List.mem_append.mp h with h | h
      · exact hargno ';' (by decide) (by decide) (by decide) (by decide) h
      · revert h; decide
  have hsplit : splitOnChar ';' (mkArithStmt l k r) =
      [("console.log(".toList ++ (l ++ opCharOf k :: r ++ [')'])), []] := by
    rw [hm, splitOnChar_append ';' _ _ hsemi_seg]
    rfl
  have hseg_ns : ∀ x ∈ "console.log(".toList ++ (l ++ opCharOf k :: r ++ [')']),
      isSpaceChar x = false := by
    have hP : ∀ y ∈ ("console.log(".toList : List Char), isSpaceChar y = false := by
      decide
    intro x hx
    rcases List.mem_append.mp hx with h | h
    · exact hP x h
    · rw [show l ++ opCharOf k :: r ++ [')'] = (l ++ opCharOf k :: r) ++ [')'] by
        simp] at h
      rcases List.mem_append.mp h with h | h
      · exact harg_ns x h
      · simp only [List.mem_singleton] at h
        subst h
        decide
  have hseg_ne : "console.log(".toList ++ (l ++ opCharOf k :: r ++ [')']) ≠ [] := by
    simp
  -- lexStmt on the segment
  have hidx1 : indexOfChar '('
      ("console.log(".toList ++ (l ++ opCharOf k :: r ++ [')'])) = some 11 := by
    rw [hP12, List.append_assoc]
    rw [show (['('] : List Char) ++ (l ++ opCharOf k :: r ++ [')']) =
        '(' :: (l ++ opCharOf k :: r ++ [')']) from rfl]
    rw [indexOfChar_append '(' _ _ (by decide)]
    decide
  have hlast : lastIndexOfChar ')'
      ("console.log(".toList ++ (l ++ opCharOf k :: r ++ [')'])) =
      some (12 + (l.length + (1 + r.length))) := by
    rw [show "console.log(".toList ++ (l ++ opCharOf k :: r ++ [')']) =
        ("console.log(".toList ++ (l ++ opCharOf k :: r)) ++ [')'] by simp]
    rw [lastIndexOfChar_concat]
    simp only [List.length_append, List.length_cons]
    congr 1
    have h12 : ("console.log(".toList : List Char).length = 12 := by decide
    omega
  have htake : ("console.log(".toList ++ (l ++ opCharOf k :: r ++ [')'])).take 11 =
      "console.log".toList := by
    rw [hP12, List.append_assoc]
    exact List.take_left' (by decide)
  have hdrop : (("console.log(".toList ++ (l ++ opCharOf k :: r ++ [')'])).drop
        (11 + 1)).take ((12 + (l.length + (1 + r.length))) - (11 + 1)) =
      l ++ opCharOf k :: r := by
    rw [List.drop_left' (by decide : ("console.log(".toList : List Char).length = 11 + 1)]
    rw [show l ++ opCharOf k :: r ++ [')'] = (l ++ opCharOf k :: r) ++ [')'] by simp]
    refine List.take_left' ?_
    simp
    omega
  have hwords : headerToks (fieldsFunc (fun c => c = ' ' || c = '.')
      ("console.log".toList)) =
      [⟨.CONSOLE, "console".toList⟩, ⟨.LOG, "log".toList⟩] := by decide
  have hcomma : splitOnChar ',' (l ++ opCharOf k :: r) = [l ++ opCharOf k :: r] :=
    splitOnChar_of_none ','  _
      (hargno ',' (by decide) (by decide) (by decide) (by decide))
  have htriml : trimSpace l = l :=
    trimSpace_eq_self l (fun x hx => harg_ns x (List.mem_append.mpr (Or.inl hx)))
  have htrimr : trimSpace r = r :=
    trimSpace_eq_self r (fun x hx =>
      harg_ns x (List.mem_append.mpr (Or.inr (List.mem_cons.mpr (Or.inr hx)))))
  have hargsplit : lexArg (l ++ opCharOf k :: r) =
      .ok [⟨.INT, l⟩, ⟨opTypeOf k, [opCharOf k]⟩, ⟨.INT, r⟩] := by
    obtain ⟨d, l', rfl⟩ := List.exists_cons_of_ne_nil hl1
    have hd : isDigitChar d = true := hl2 d (by simp)
    obtain ⟨tk, htk, heq⟩ := lexArg_split (d :: l') (opCharOf k) r
      (opCharOf_mem k)
      (fun x hx => digit_not_op (hl2 x hx))
      (trimSpace_eq_self _ harg_ns)
      (by
        rw [show ((d :: l') ++ opCharOf k :: r) = d :: (l' ++ opCharOf k :: r)
            from rfl]
        rw [show startsWithQuote (d :: (l' ++ opCharOf k :: r)) =
            decide (d = '"') from rfl]
        rw [decide_eq_false (digit_ne hd (by decide))]
        rfl)
    rw [opTokenOf_opCharOf] at htk
    cases htk
    rw [heq, htriml, htrimr]
  have hlexStmt : lexStmt ("console.log(".toList ++ (l ++ opCharOf k :: r ++ [')'])) =
      .ok [⟨.CONSOLE, "console".toList⟩, ⟨.LOG, "log".toList⟩,
        ⟨.INT, l⟩, ⟨opTypeOf k, [opCharOf k]⟩, ⟨.INT, r⟩] := by
    rw [lexStmt.eq_def]
    rw [hidx1, hlast]
    simp only []
    rw [if_neg (by omega)]
    rw [htake, hdrop, hwords, hcomma]
    rw [show lexArgs [l ++ opCharOf k :: r] =
        match lexArg (l ++ opCharOf k :: r) with
        | .error e => .error e
        | .ok ts =>
          match lexArgs [] with
          | .error e => .error e
          | .ok rest => .ok (ts ++ rest) from rfl]
    rw [hargsplit]
    rfl
  unfold Lex
  rw [hsplit, lexStmts_cons, trimSpace_eq_self _ hseg_ns, if_neg hseg_ne, hlexStmt]
  rfl

theorem Parse_arith (k : OpKind) (l r : List Char) :
    Parse [⟨.CONSOLE, "console".toList⟩, ⟨.LOG, "log".toList⟩,
      ⟨.INT, l⟩, ⟨opTypeOf k, [opCharOf k]⟩, ⟨.INT, r⟩] =
      .ok [.consoleLog [mkBinNode k l r]] := by
  rw [show Parse [⟨.CONSOLE, "console".toList⟩, ⟨.LOG, "log".toList⟩,
      ⟨.INT, l⟩, ⟨opTypeOf k, [opCharOf k]⟩, ⟨.INT, r⟩] =
      parseArgsLoop 0 [] [⟨.INT, l⟩, ⟨opTypeOf k, [opCharOf k]⟩, ⟨.INT, r⟩]
      from rfl]
  rw [parseArgsLoop_int_pair [] ⟨.INT, l⟩ ⟨opTypeOf k, [opCharOf k]⟩
    ⟨.INT, r⟩ [] rfl rfl]
  rw [parseArgsLoop_nil]
  simp [mkBinList, opOfType_opTypeOf]

/-- The full pipeline on `console.log(<l><op><r>);` where `l` is a digit
string and `r` an accepted numeral: one line holding the decimal text of the
operator's exact value, provided the operand and result values lie in the
64-bit range (so neither `Atoi` clamping nor wraparound bites) and the
divisor is nonzero for `div`/`mod`.  For `pow` the extra hypothesis `hpow`
confines the statement to the region where the float64 computation of the
source is exact: base below `2^53` (so its `float64` conversion is the
identity; this part is what the proof uses), and additionally result below
`2^53` for nonnegative exponents and nonzero base for negative exponents,
so that every intermediate of `math.Pow`'s squaring loop is exactly
representable and no `±Inf`/out-of-range conversion occurs. -/
theorem run_mkArithStmt (k : OpKind) (l r : List Char) (vr : Int)
    (hl1 : l ≠ []) (hl2 : ∀ x ∈ l, isDigitChar x = true)
    (hr : numParse r = some vr)
    (hlv : (digitsVal l : Int) ≤ int64Max)
    (hvr1 : int64Min ≤ vr) (hvr2 : vr ≤ int64Max)
    (hdz : (k = .div ∨ k = .mod) → vr ≠ 0)
    (hpow : k = .pow → (digitsVal l : Int) < 2 ^ 53 ∧
      (0 ≤ vr → (digitsVal l : Int) ^ vr.toNat < 2 ^ 53) ∧
      (vr < 0 → (digitsVal l : Int) ≠ 0))
    (hres1 : int64Min ≤ opDenote k (digitsVal l) vr)
    (hres2 : opDenote k (digitsVal l) vr ≤ int64Max) :
    run (mkArithStmt l k r) = ([itoa (opDenote k (digitsVal l) vr)], none) := by
  have hatoil : atoi l = (digitsVal l : Int) := by
    rw [atoi_of_numParse (numParse_of_digits hl1 hl2)]
    refine int64clamp_eq_self ?_ hlv
    have hnn : (0 : Int) ≤ (digitsVal l : Int) := Int.natCast_nonneg _
    unfold int64Min
    omega
  have hatoir : atoi r = vr := by
    rw [atoi_of_numParse hr]
    exact int64clamp_eq_self hvr1 hvr2
  have hbin : Execute (mkBinNode k l r) =
      .ok (itoa (opDenote k (digitsVal l) vr)) := by
    rw [Execute_mkBinNode k l r (by rw [hatoir]; exact hdz), hatoil, hatoir]
    congr 1
    cases k with
    | add =>
      simp only [opDenote] at hres1 hres2 ⊢
      simp only [binOut]
      rw [int64wrap_eq_self hres1 hres2]
    | sub =>
      simp only [opDenote] at hres1 hres2 ⊢
      simp only [binOut]
      rw [int64wrap_eq_self hres1 hres2]
    | mul =>
      simp only [opDenote] at hres1 hres2 ⊢
      simp only [binOut]
      rw [int64wrap_eq_self hres1 hres2]
    | div =>
      simp only [opDenote] at hres1 hres2 ⊢
      simp only [binOut]
      rw [int64wrap_eq_self hres1 hres2]
    | mod => simp only [binOut, opDenote]
    | pow =>
      obtain ⟨hb53, -, -⟩ := hpow rfl
      simp only [binOut, opDenote]
      rw [powFloat_eq_powTrunc _ (Int.natCast_nonneg _) hb53]
  have hlist : execList [mkBinNode k l r] =
       .ok [itoa (opDenote k (digitsVal l) vr)] := by
    simp [execList, hbin]
  have hcl : Execute (.consoleLog [mkBinNode k l r]) =
      .ok (itoa (opDenote k (digitsVal l) vr)) := by
    simp [Execute, hlist, List.intercalate]
  have hEv : Eval [Node.consoleLog [mkBinNode k l r]] =
      ([itoa (opDenote k (digitsVal l) vr)], none) := by
    simp [Eval, hcl]
  unfold run
  rw [Lex_mkArithStmt k l r vr hl1 hl2 hr]
  simp only [Parse_arith k l r, hEv]

/-- C1 witness: the theorem applied at concrete tokens: an `Int Plus Int`
window becomes one binary node, an `Int Int Int` window drops all three. -/
theorem C1_int_lookahead_witness :
    opOfType (Token.mk .PLUS ['+']).type = some OpKind.add ∧
    (Token.mk .INT ['2']).type = TokenType.INT ∧
    parseArgsLoop 0 [] [⟨.INT, ['1']⟩, ⟨.PLUS, ['+']⟩, ⟨.INT, ['2']⟩] =
      parseArgsLoop 0 [mkBinNode .add ['1'] ['2']] [] ∧
    opOfType (Token.mk .INT ['2']).type = none ∧
    parseArgsLoop 0 [] [⟨.INT, ['1']⟩, ⟨.INT, ['2']⟩, ⟨.INT, ['3']⟩] =
      parseArgsLoop 0 [] [] :=
  ⟨rfl, rfl,
    C1_int_lookahead.1 [] ['1'] ⟨.PLUS, ['+']⟩ ⟨.INT, ['2']⟩ [] .add rfl rfl,
    rfl,
    C1_int_lookahead.2.1 [] ['1'] ⟨.INT, ['2']⟩ ⟨.INT, ['3']⟩ [] rfl rfl⟩

/-- C4 counterexample: the pipeline does NOT print the exact integer result
for every well-formed arithmetic statement over 64-bit-representable
literals.  `console.log(999999999999999999^1);` converts the left operand to
`float64`, which rounds `10^18 - 1` up to `10^18` (and `math.Pow(x, 1)`
returns `x` unchanged), so the program prints `1000000000000000000` instead
of the exact `999999999999999999`. -/
theorem C4_counterexample :
    run ("console.log(999999999999999999^1);".toList) =
      ([("1000000000000000000".toList)], none) ∧
    ("1000000000000000000".toList : List Char) ≠
      "999999999999999999".toList :=
  ⟨by decide, by decide⟩

/-- C4 (amended): the full pipeline on a well-formed single-operator
statement over integer literals prints the exact integer result whenever the
operand and result values are 64-bit representable and the divisor is
nonzero for `div`/`mod`; for `pow` — computed by the source through
`float64` — exactness additionally requires the base and (for nonnegative
exponents) the result to be below `2^53` and the base to be nonzero for
negative exponents, the region where the float computation coincides with
real-valued exponentiation truncated toward zero.  In particular
`console.log(3+4);` prints `7`, `console.log(10%3);` prints `1`,
`console.log(2^5);` prints `32` and `console.log(7/2);` prints `3`. -/
theorem C4_six_operators_exact :
    (∀ (k : OpKind) (l r : List Char) (vr : Int),
      l ≠ [] → (∀ x ∈ l, isDigitChar x = true) →
      numParse r = some vr →
      (digitsVal l : Int) ≤ int64Max →
      int64Min ≤ vr → vr ≤ int64Max →
      ((k = .div ∨ k = .mod) → vr ≠ 0) →
      (k = .pow → (digitsVal l : Int) < 2 ^ 53 ∧
        (0 ≤ vr → (digitsVal l : Int) ^ vr.toNat < 2 ^ 53) ∧
        (vr < 0 → (digitsVal l : Int) ≠ 0)) →
      int64Min ≤ opDenote k (digitsVal l) vr →
      opDenote k (digitsVal l) vr ≤ int64Max →
      run (mkArithStmt l k r) = ([itoa (opDenote k (digitsVal l) vr)], none)) ∧
    run ("console.log(3+4);".toList) = ([['7']], none) ∧
    run ("console.log(10%3);".toList) = ([['1']], none) ∧
    run ("console.log(2^5);".toList) = ([['3', '2']], none) ∧
    run ("console.log(7/2);".toList) = ([['3']], none) :=
  ⟨run_mkArithStmt, rfl, rfl, rfl, rfl⟩

/-- C4 witness: the general part of the theorem applied at `2^5` (whose
hypotheses include the float64-exactness bounds) and at `3+4`. -/
theorem C4_six_operators_exact_witness :
    (['2'] : List Char) ≠ [] ∧
    (∀ x ∈ (['2'] : List Char), isDigitChar x = true) ∧
    numParse ['5'] = some 5 ∧
    (digitsVal ['2'] : Int) ≤ int64Max ∧
    int64Min ≤ (5 : Int) ∧ (5 : Int) ≤ int64Max ∧
    ((OpKind.pow = .pow) → (digitsVal ['2'] : Int) < 2 ^ 53 ∧
      (0 ≤ (5 : Int) → (digitsVal ['2'] : Int) ^ (5 : Int).toNat < 2 ^ 53) ∧
      ((5 : Int) < 0 → (digitsVal ['2'] : Int) ≠ 0)) ∧
    int64Min ≤ opDenote .pow (digitsVal ['2']) 5 ∧
    opDenote .pow (digitsVal ['2']) 5 ≤ int64Max ∧
    run (mkArithStmt ['2'] .pow ['5']) =
      ([itoa (opDenote .pow (digitsVal ['2']) 5)], none) ∧
    run (mkArithStmt ['3'] .add ['4']) =
      ([itoa (opDenote .add (digitsVal ['3']) 4)], none) :=
  ⟨by decide, by decide, by decide, by decide, by decide, by decide,
    by decide, by decide, by decide,
    C4_six_operators_exact.1 .pow ['2'] ['5'] 5 (by decide) (by decide)
      (by decide) (by decide) (by decide) (by decide) (by decide)
      (by decide) (by decide) (by decide),
    C4_six_operators_exact.1 .add ['3'] ['4'] 4 (by decide) (by decide)
      (by decide) (by decide) (by decide) (by decide) (by decide)
      (by decide) (by decide) (by decide)⟩

end ES
